import Mathlib

/-!
# A verification development for the KipDB LSM storage core

This file gives a shallow embedding of the two source modules
`src/kernel/lsm/version/mod.rs` and `src/kernel/lsm/lsm_kv.rs` of the KipDB
repository, together with theorems settling the frozen claims about them.

Conventions of the embedding:
* byte strings (`Bytes` in Rust) are `List Nat`, compared lexicographically
  exactly as `Ord` on `[u8]` compares slices;
* `i64`/`u64`/`usize` become `Int`/`Nat` (no overflow is reachable in the
  modelled code paths: gens are opaque identifiers, lengths are list lengths);
* fallible Rust code returns `Except`/`Option`; IO-only failure points that
  the claims do not touch are modelled as succeeding, with a note;
* the `clean_tx` channel is modelled by returning the list of `CleanTag`
  messages a call sends;
* code of the repository that is not under `src/` (the `Scope`, `Table`,
  `TableLoader`, `MemTable` and `LogLoader` modules) is modelled from the
  spec; each such definition carries a doc comment starting with
  `Modelled from the spec:`.
-/

namespace KipDB

/-- Byte strings (`bytes::Bytes` / `Vec<u8>` / `&[u8]`). -/
abbrev Bytes := List Nat

/-- Keys are byte strings. -/
abbrev Key := List Nat

/-- Lexicographic comparison of byte slices, as `Ord for [u8]` in Rust:
compare element-wise, a strict prefix is smaller. -/
def keyCmp : Key → Key → Ordering
  | [], [] => Ordering.eq
  | [], _ :: _ => Ordering.lt
  | _ :: _, [] => Ordering.gt
  | a :: as_, b :: bs =>
    if a < b then Ordering.lt
    else if b < a then Ordering.gt
    else keyCmp as_ bs

/-- Boolean `a ≤ b` on keys, derived from `keyCmp`. -/
def keyLeB (a b : Key) : Bool := keyCmp a b ≠ Ordering.gt

/-- The atomic unit of mutation (`CommandData` in `src/kernel/mod.rs`,
used by `lsm_kv.rs` via `CommandData::set` / `CommandData::remove`):
a `Set` carries a value, a `Remove` is a tombstone. -/
inductive CommandData where
  | set (key : Key) (value : Bytes)
  | remove (key : Key)
deriving DecidableEq, Repr

/-- Rust `CommandData::get_key_clone`: the key of a command. -/
def CommandData.get_key : CommandData → Key
  | .set key _ => key
  | .remove key => key

/-- Modelled from the spec: `Scope` (§3, `src/kernel/lsm/table/scope.rs` is
not under `src/`) is the closed key interval of a table plus its `gen`.
The Rust field `end` is a Lean keyword, so it is called `stop` here. -/
structure Scope where
  start : Key
  stop : Key
  gen : Int
deriving DecidableEq, Repr

instance : Inhabited Scope := ⟨⟨[], [], 0⟩⟩

/-- Rust `Scope::get_gen`. -/
def Scope.get_gen (s : Scope) : Int := s.gen

/-- Modelled from the spec: `Scope::meet_by_key` tests membership of a key
in the closed interval `[start, end]` (§3 "Scope"). -/
def Scope.meet_by_key (s : Scope) (key : Key) : Bool :=
  keyLeB s.start key && keyLeB key s.stop

/-- Modelled from the spec: an immutable on-disk table (§4.2), reduced to
the association of keys to values its point query answers; the block/index/
filter machinery of `table/mod.rs` is not under `src/`. -/
abbrev Table := List (Key × Bytes)

/-- Modelled from the spec: `Table::query(key) → Option<value>` (§4.2). -/
def Table.query (t : Table) (key : Key) : Option Bytes :=
  (t.find? (fun p => p.1 = key)).map (fun p => p.2)

/-- Modelled from the spec: the shared `TableLoader` (§4.2), reduced to the
mapping `gen → open Table handle` its `get` exposes; caching is invisible
to the claims. -/
abbrev TableLoader := List (Int × Table)

/-- Modelled from the spec: `TableLoader::get(gen)`; `None` when no table
with that `gen` is known. -/
def TableLoader.get (loader : TableLoader) (gen : Int) : Option Table :=
  (loader.find? (fun p => p.1 = gen)).map (fun p => p.2)

/-- Rust `TableMeta` (`src/kernel/lsm/table/meta.rs`, used by the edits):
statistics carried by a `VersionEdit`. -/
structure TableMeta where
  size_of_disk : Nat
  len : Nat
deriving DecidableEq, Repr

instance : Inhabited TableMeta := ⟨⟨0, 0⟩⟩

/-- Rust `VersionMeta` (`src/kernel/lsm/version/meta.rs`): per-version statistics.
Its `statistical_process` is not under `src/`; the claims never touch the
statistics, so `apply` below carries this field through unchanged. -/
structure VersionMeta where
  size_of_disk : Nat
  len : Nat
deriving DecidableEq, Repr

/-- Rust `VersionEdit` (`src/kernel/lsm/version/edit.rs`, shape as used by
`mod.rs`): `DeleteFile((Vec<gen>, level), TableMeta)` or
`NewFile((Vec<Scope>, level), insert_index, TableMeta)`. Levels are indices
into the seven-slot `level_slice`, hence `Fin 7`. -/
inductive VersionEdit where
  | deleteFile (gens : List Int) (level : Fin 7) (meta : TableMeta)
  | newFile (scopes : List Scope) (level : Fin 7) (index : Nat) (meta : TableMeta)
deriving DecidableEq, Repr

/-- Rust `CleanTag` (`src/kernel/lsm/version/cleaner.rs` interface used by
`mod.rs`): messages to the Cleaner. -/
inductive CleanTag where
  | add (version : Nat) (gens : List Int)
  | clean (version : Nat)
deriving DecidableEq, Repr

/-- Level layout `LevelSlice = [Vec<Scope>; 7]`. -/
abbrev LevelSlice := Fin 7 → List Scope

/-- Rust `Version::level_slice_new()`: seven empty levels. -/
def level_slice_new : LevelSlice := fun _ => []

/-- Rust `Version` (`version/mod.rs`): version number, the shared table loader,
and the per-level scope lists. The `clean_tx` channel is modelled by
`Version.apply` returning the messages it sends. -/
structure Version where
  version_num : Nat
  table_loader : TableLoader
  level_slice : LevelSlice
  meta_data : VersionMeta

/-- Rust `itertools::sorted_by_key(Scope::get_gen)`: a stable sort of the scopes
by ascending `gen` (insertion sort is stable, like the Rust sort). -/
def sortByGen (scopes : List Scope) : List Scope :=
  scopes.insertionSort (fun a b => a.gen ≤ b.gen)

/-- The gens a single edit deletes: the gen list of a `DeleteFile`, nothing
for a `NewFile` (the `del_gens` accumulation in `Version::apply`). -/
def VersionEdit.deletedGens : VersionEdit → List Int
  | .deleteFile gens _ _ => gens
  | .newFile _ _ _ _ => []

/-- The effect of one `VersionEdit` on the `level_slice`, as in the match
inside `Version::apply`:
* `DeleteFile`: `retain(|scope| !vec_gen.contains(&scope.get_gen()))`;
* `NewFile` at level 0: push the scopes sorted by `gen` in order;
* `NewFile` at level ≥ 1: `for scope in scope_iter.rev() { insert(index, scope) }`. -/
def applyStepSlice (slice : LevelSlice) : VersionEdit → LevelSlice
  | .deleteFile gens level _ =>
    Function.update slice level
      ((slice level).filter (fun scope => !(gens.contains scope.get_gen)))
  | .newFile scopes level index _ =>
    if level = 0 then
      Function.update slice 0 (slice 0 ++ sortByGen scopes)
    else
      Function.update slice level
        (((sortByGen scopes).reverse).foldl (fun vec scope => vec.insertIdx index scope)
          (slice level))

/-- One iteration of the edit loop in `Version::apply`: update the slice
and append this edit's deleted gens to `del_gens`. -/
def applyStep (acc : LevelSlice × List Int) (edit : VersionEdit) : LevelSlice × List Int :=
  (applyStepSlice acc.1 edit, acc.2 ++ edit.deletedGens)

/-- Rust `Version::apply(vec_version_edit)`: fold the edits over the level
slice while accumulating `del_gens`, then bump `version_num` and send one
`CleanTag::Add { version, gens: del_gens }`. The sent messages are
returned. `VersionMeta::statistical_process` is not under `src/` and the
claims do not touch the statistics, so `meta_data` is carried unchanged
and the call always succeeds (its only failure points are the statistics
and a closed channel). -/
def Version.apply (v : Version) (vec_version_edit : List VersionEdit) :
    Version × List CleanTag :=
  let folded := vec_version_edit.foldl applyStep (v.level_slice, [])
  let new_num := v.version_num + 1
  ({ v with level_slice := folded.1, version_num := new_num },
   [CleanTag.add new_num folded.2])

/-- The helper `sst_meta_by_level` inside `Version::to_vec_edit`: level 0
carries the version statistics, other levels a default `TableMeta`. -/
def sst_meta_by_level (level : Fin 7) (size_of_disk : Nat) (len : Nat) : TableMeta :=
  if level = 0 then ⟨size_of_disk, len⟩ else default

/-- Rust `Version::to_vec_edit()`: one `NewFile` per non-empty level, cloning
that level's scopes, with `insert_index` 0. -/
def Version.to_vec_edit (v : Version) : List VersionEdit :=
  (List.finRange 7).filterMap (fun level =>
    if (v.level_slice level).isEmpty then none
    else some (VersionEdit.newFile (v.level_slice level) level 0
      (sst_meta_by_level level v.meta_data.size_of_disk v.meta_data.len)))

/-- Rust `Version::load_from_log(vec_log, ss_table_loader, clean_tx)`: build a
fresh version (`version_num` 0, empty levels, zero statistics) and apply
the edit log to it; the messages the apply sends are returned. -/
def Version.load_from_log (vec_log : List VersionEdit)
    (ss_table_loader : TableLoader) : Version × List CleanTag :=
  ({ version_num := 0
     table_loader := ss_table_loader
     level_slice := level_slice_new
     meta_data := ⟨0, 0⟩ } : Version).apply vec_log

/-- The loop of Rust `slice::binary_search_by` on a scope vector, compared
against `scope.start.cmp(key)`: fuel-indexed translation of
`while left < right { mid = (left+right)/2; ... }`; `Sum.inl` is `Ok(mid)`
(comparator returned `Equal`), `Sum.inr` is `Err(left)` (insertion point).
The fuel only bounds the loop; `binary_search_by` below supplies enough
fuel for the loop to run to completion. -/
def binarySearchLoop (vec : List Scope) (key : Key) :
    Nat → Nat → Nat → Nat ⊕ Nat
  | left, _, 0 => Sum.inr left
  | left, right, fuel + 1 =>
    if left < right then
      let mid := (left + right) / 2
      match keyCmp ((vec.getD mid default).start) key with
      | Ordering.lt => binarySearchLoop vec key (mid + 1) right fuel
      | Ordering.gt => binarySearchLoop vec key left mid fuel
      | Ordering.eq => Sum.inl mid
    else Sum.inr left

/-- Rust `vec.binary_search_by(|scope| scope.start.as_ref().cmp(key))`. -/
def binary_search_by (vec : List Scope) (key : Key) : Nat ⊕ Nat :=
  binarySearchLoop vec key 0 vec.length (vec.length + 1)

/-- Rust `Version::query_meet_index(key, level)`: the binary-search slot, or on
a miss the predecessor of the insertion point, saturating at 0 (Nat
subtraction is exactly `saturating_sub`). -/
def Version.query_meet_index (v : Version) (key : Key) (level : Fin 7) : Nat :=
  match binary_search_by (v.level_slice level) key with
  | Sum.inl index => index
  | Sum.inr index => index - 1

/-- The level-0 loop of `Version::query`: walk the scopes newest-first
(`iter().rev()`, so the caller passes the reversed level-0 vector); for a
scope containing the key whose table is loaded and hits, return the value,
otherwise keep walking. -/
def queryLevel0 (loader : TableLoader) (key : Key) : List Scope → Option Bytes
  | [] => none
  | scope :: rest =>
    if scope.meet_by_key key then
      match loader.get scope.get_gen with
      | some ss_table =>
        match ss_table.query key with
        | some value => some value
        | none => queryLevel0 loader key rest
      | none => queryLevel0 loader key rest
    else queryLevel0 loader key rest

/-- The `for level in 1..7` loop of `Version::query`, over the remaining
levels to visit: compute `query_meet_index`; if that slot exists, the
function returns right there with that single table's answer (`Ok(None)`
when the loader has no table for the gen) — it does **not** fall through
to later levels on a table miss. -/
def queryLevels (v : Version) (key : Key) : List (Fin 7) → Option Bytes
  | [] => none
  | level :: rest =>
    let offset := v.query_meet_index key level
    match (v.level_slice level)[offset]? with
    | some scope =>
      match v.table_loader.get scope.get_gen with
      | some ss_table => ss_table.query key
      | none => none
    | none => queryLevels v key rest

/-- Rust `Version::query(key)`: level 0 newest-first, then levels 1..6. Table
queries are modelled as pure (`Table::query`'s IO errors are out of
scope), so the Rust `Result<Option<Bytes>>` becomes `Option Bytes`. -/
def Version.query (v : Version) (key : Key) : Option Bytes :=
  match queryLevel0 v.table_loader key ((v.level_slice 0).reverse) with
  | some value => some value
  | none => queryLevels v key [1, 2, 3, 4, 5, 6]

/-- The configuration fields of `Config` (`lsm_kv.rs`) that the modelled
code paths read. -/
structure Config where
  minor_threshold_with_len : Nat
  major_threshold_with_sst_size : Nat
  level_sst_magnification : Nat
  wal_enable : Bool
  wal_async_put_enable : Bool
deriving DecidableEq, Repr

/-- Rust `Version::is_threshold_exceeded_major(config, level)`:
`level_slice[level].len() >= major_threshold_with_sst_size *
level_sst_magnification.pow(level)`. -/
def Version.is_threshold_exceeded_major (v : Version) (config : Config)
    (level : Fin 7) : Bool :=
  (v.level_slice level).length ≥
    config.major_threshold_with_sst_size *
      config.level_sst_magnification ^ (level : Nat)

/-- Error kind `KvsError` (the variants the modelled paths can produce). -/
inductive KvsError where
  | keyNotFound
deriving DecidableEq, Repr

/-- Modelled from the spec: `MemMap` (§3 "MemTable", `src/kernel/lsm/mod.rs`
is not under `src/`): a map from key to `(command, seq)`, embedded as an
association list with map semantics given by `memMapInsert`/`memMapLookup`. -/
abbrev MemMap := List (Key × (CommandData × Nat))

/-- Lookup in a `MemMap`. -/
def memMapLookup (m : MemMap) (key : Key) : Option (CommandData × Nat) :=
  (m.find? (fun p => p.1 = key)).map (fun p => p.2)

/-- Insert into a `MemMap`, replacing any existing binding of the key. -/
def memMapInsert (m : MemMap) (key : Key) (value : CommandData × Nat) : MemMap :=
  (key, value) :: m.filter (fun p => !(p.1 = key : Bool))

/-- Rust `MemMap::from_iter`: build a map from pairs, later pairs overwriting
earlier ones (BTreeMap `FromIterator` semantics). -/
def memMapFromIter (pairs : List (Key × (CommandData × Nat))) : MemMap :=
  pairs.foldl (fun m p => memMapInsert m p.1 p.2) []

/-- The `unique_by(CommandData::get_key_clone)` step of the WAL rebuild in
`LsmStore::open_with_config` (itertools `unique_by`: keep the first
occurrence of each key, preserving order); `seen` is the set of keys
already emitted. -/
def uniqueByKeyAux (seen : List Key) : List CommandData → List CommandData
  | [] => []
  | cmd :: rest =>
    if cmd.get_key ∈ seen then uniqueByKeyAux seen rest
    else cmd :: uniqueByKeyAux (cmd.get_key :: seen) rest

/-- Rust `vec_data.into_iter().unique_by(CommandData::get_key_clone)`. -/
def uniqueByKey (cmds : List CommandData) : List CommandData :=
  uniqueByKeyAux [] cmds

/-- The `Some(vec_data)` branch of the WAL reload in
`LsmStore::open_with_config`: reverse the replayed commands, dedup by key
keeping the first (i.e. the latest write), and map every survivor to one
freshly generated sequence id `create_seq_id`. -/
def rebuildMemMap (vec_data : List CommandData) (create_seq_id : Nat) : MemMap :=
  memMapFromIter
    ((uniqueByKey vec_data.reverse).map (fun cmd => (cmd.get_key, (cmd, create_seq_id))))

/-- Modelled from the spec: the `MemTable` (§4.3): an active map, an
optional frozen map awaiting flush, and the current sequence id used for
inserts. -/
structure MemTable where
  active : MemMap
  frozen : Option MemMap
  seq : Nat
deriving DecidableEq, Repr

/-- Modelled from the spec: the value a `MemTable` lookup yields for a
command (§4.3): a `Set` yields its value, a tombstone yields the empty
byte string. -/
def commandValue : CommandData → Bytes
  | .set _ value => value
  | .remove _ => []

/-- Modelled from the spec: `MemTable::find(key)` (§4.3): check the active
then the frozen map; a `Set` yields its value, a tombstone yields
`Some(empty)`. -/
def MemTable.find (mt : MemTable) (key : Key) : Option Bytes :=
  match memMapLookup mt.active key with
  | some (cmd, _) => some (commandValue cmd)
  | none =>
    match mt.frozen with
    | some frozen_map => (memMapLookup frozen_map key).map (fun p => commandValue p.1)
    | none => none

/-- Modelled from the spec: `MemTable::insert_data_and_is_exceeded`
(§4.3): insert the command under the current `seq`, and report whether the
size crossed `minor_threshold_with_len`. -/
def MemTable.insert_data_and_is_exceeded (mt : MemTable) (cmd : CommandData)
    (config : Config) : MemTable × Bool :=
  let active := memMapInsert mt.active cmd.get_key (cmd, mt.seq)
  ({ mt with active := active },
   config.minor_threshold_with_len ≤ active.length)

/-- Ordering of mem-table entries by key, for `swap_and_sort`. -/
def entryKeyLe (a b : Key × (CommandData × Nat)) : Prop :=
  keyLeB a.1 b.1 = true

instance : DecidableRel entryKeyLe := fun a b => by
  unfold entryKeyLe; infer_instance

/-- Modelled from the spec: `MemTable::swap_and_sort` (§4.3): when there is
something to flush and the frozen slot is empty, move the active map into
the frozen slot and return its entries in key order together with the
maximum drained `seq`; otherwise return `None`. -/
def MemTable.table_swap_and_sort (mt : MemTable) :
    Option (List (Key × (CommandData × Nat)) × Nat) × MemTable :=
  if mt.active.isEmpty then (none, mt)
  else
    match mt.frozen with
    | none =>
      (some (mt.active.insertionSort entryKeyLe,
             mt.active.foldl (fun m p => max m p.2.2) 0),
       { mt with active := [], frozen := some mt.active })
    | some _ => (none, mt)

/-- Rust `MemTable::is_empty`. -/
def MemTable.is_empty (mt : MemTable) : Bool :=
  mt.active.isEmpty && mt.frozen.isNone

/-- The `LsmStore` façade (`lsm_kv.rs`): the mem-table, the current
version (`ver_status.current()`), the configuration, the WAL contents as
the list of appended commands, the outstanding live-tag receivers
`vec_rev` (their payload is irrelevant, only their presence), and
`wal_fail`, an oracle for whether the underlying `LogLoader::log` call
(not under `src/`) fails. -/
structure LsmStore where
  mem_table : MemTable
  version : Version
  config : Config
  wal : List CommandData
  vec_rev : List Unit
  wal_fail : Bool

/-- Rust `LsmStore::is_enable_wal`. -/
def LsmStore.is_enable_wal (s : LsmStore) : Bool := s.config.wal_enable

/-- Rust `LsmStore::is_async_wal`. -/
def LsmStore.is_async_wal (s : LsmStore) : Bool := s.config.wal_async_put_enable

/-- Rust `LsmStore::wait_for_compression_down`: pop and await every receiver in
`vec_rev`; in the state model the pending list is drained. -/
def LsmStore.wait_for_compression_down (s : LsmStore) : LsmStore :=
  { s with vec_rev := [] }

/-- Rust `wal_put(wal, cmd, is_sync)`: append the command to the WAL; a failure
of the underlying `LogLoader::log` (the `wal_fail` oracle) is logged and
swallowed — the function returns nothing either way. The async mode spawns
the same append on a task; sequentially both modes append. -/
def wal_put (s : LsmStore) (cmd : CommandData) (_is_sync : Bool) : LsmStore :=
  if s.wal_fail then s else { s with wal := s.wal ++ [cmd] }

/-- Rust `LsmStore::live_tag`: push a fresh receiver onto `vec_rev`. -/
def LsmStore.live_tag (s : LsmStore) : LsmStore :=
  { s with vec_rev := s.vec_rev ++ [()] }

/-- Rust `LsmStore::minor_compaction`: swap-and-sort the mem-table; when it
yields non-empty values, create a gen, register a live tag and spawn the
compactor task. The spawned compaction (compactor module, not under
`src/`) installs its result asynchronously, so the state after the call
returns holds only the swapped mem-table and the pending live tag. -/
def LsmStore.minor_compaction (s : LsmStore) : LsmStore :=
  match s.mem_table.table_swap_and_sort with
  | (some (values, _last_seq), mem_table) =>
    if values.isEmpty then { s with mem_table := mem_table }
    else { s with mem_table := mem_table }.live_tag
  | (none, mem_table) => { s with mem_table := mem_table }

/-- Rust `LsmStore::append_cmd_data(cmd, wal_write)`: WAL and mem-table double
write, then a minor compaction when the threshold is exceeded. The result
is always `Ok`: `wal_put` swallows its failure, and the remaining failure
points (`LogLoader::switch` in `create_gen`, the spawned compactor) are
outside `src/` and modelled as succeeding. -/
def LsmStore.append_cmd_data (s : LsmStore) (cmd : CommandData)
    (wal_write : Bool) : Except KvsError Unit × LsmStore :=
  let s1 := if s.is_enable_wal && wal_write then wal_put s cmd (!s.is_async_wal) else s
  let inserted := s1.mem_table.insert_data_and_is_exceeded cmd s1.config
  let s2 := { s1 with mem_table := inserted.1 }
  (Except.ok (), if inserted.2 then s2.minor_compaction else s2)

/-- Rust `LsmStore::set(key, value)`. -/
def LsmStore.set (s : LsmStore) (key : Key) (value : Bytes) :
    Except KvsError Unit × LsmStore :=
  s.append_cmd_data (CommandData.set key value) true

/-- Rust `LsmStore::get(key)`: the mem-table first; on a miss, wait for all
outstanding compactions, then query the current version
(`find_data_for_ss_tables` on the current `Version`, embedded as
`Version.query` from `version/mod.rs`). -/
def LsmStore.get (s : LsmStore) (key : Key) : Option Bytes × LsmStore :=
  match s.mem_table.find key with
  | some value => (some value, s)
  | none =>
    let s1 := s.wait_for_compression_down
    (s1.version.query key, s1)

/-- Rust `LsmStore::remove(key)`: a full `get`; on `Some` append a tombstone,
on `None` return `Err(KeyNotFound)`. The state component records the
mutations performed through `&self` (the `get` may drain `vec_rev` even
on the error path). -/
def LsmStore.remove (s : LsmStore) (key : Key) :
    Except KvsError Unit × LsmStore :=
  match s.get key with
  | (some _, s1) => s1.append_cmd_data (CommandData.remove key) true
  | (none, s1) => (Except.error KvsError.keyNotFound, s1)

/-! ## Helper lemmas on the edit fold -/

/-- The slice component of the edit fold ignores the `del_gens` component. -/
theorem foldl_applyStep_fst (edits : List VersionEdit) :
    ∀ (slice : LevelSlice) (g : List Int),
      (edits.foldl applyStep (slice, g)).1 = edits.foldl applyStepSlice slice := by
  induction edits with
  | nil => intro slice g; rfl
  | cons e rest ih => intro slice g; exact ih (applyStepSlice slice e) _

/-- The `del_gens` component of the edit fold is the concatenation of the
`DeleteFile` gen lists, in edit order. -/
theorem foldl_applyStep_snd (edits : List VersionEdit) :
    ∀ (slice : LevelSlice) (g : List Int),
      (edits.foldl applyStep (slice, g)).2
        = g ++ (edits.map VersionEdit.deletedGens).flatten := by
  induction edits with
  | nil => intro slice g; simp [List.foldl]
  | cons e rest ih =>
    intro slice g
    simp only [List.foldl, List.map, List.flatten]
    rw [ih]
    simp [applyStep, List.append_assoc]

/-- Membership is preserved by `insertIdx` (Rust `Vec::insert` adds an
element, it never drops one). -/
theorem mem_insertIdx_of_mem {α : Type _} {a x : α} :
    ∀ (n : Nat) (l : List α), a ∈ l → a ∈ l.insertIdx n x
  | 0, l, h => List.mem_cons_of_mem _ h
  | _ + 1, [], h => absurd h (List.not_mem_nil a)
  | n + 1, b :: t, h => by
    rw [List.insertIdx_succ_cons]
    rcases List.mem_cons.mp h with h | h
    · exact h ▸ List.mem_cons_self _ _
    · exact List.mem_cons_of_mem _ (mem_insertIdx_of_mem n t h)

/-- Membership is preserved by the `NewFile` insertion loop. -/
theorem mem_foldl_insertIdx {a : Scope} (index : Nat) :
    ∀ (xs : List Scope) (acc : List Scope), a ∈ acc →
      a ∈ xs.foldl (fun vec scope => vec.insertIdx index scope) acc := by
  intro xs
  induction xs with
  | nil => intro acc h; exact h
  | cons x t ih =>
    intro acc h
    exact ih _ (mem_insertIdx_of_mem _ _ h)

/-- A scope that one edit step drops from its level was named by a
`DeleteFile` gen list of that step. -/
theorem applyStepSlice_removed {slice : LevelSlice} {e : VersionEdit}
    {l : Fin 7} {scope : Scope} (hmem : scope ∈ slice l)
    (hout : scope ∉ applyStepSlice slice e l) : scope.gen ∈ e.deletedGens := by
  cases e with
  | deleteFile gens level meta =>
    by_cases hl : l = level
    · subst hl
      simp only [applyStepSlice, Function.update_same] at hout
      show scope.gen ∈ gens
      by_contra hg
      exact hout (List.mem_filter.mpr ⟨hmem, by
        simp [List.contains, List.elem_eq_mem, Scope.get_gen, hg]⟩)
    · exact absurd (by simpa [applyStepSlice, Function.update_noteq hl] using hmem) hout
  | newFile scopes level index meta =>
    exfalso
    apply hout
    simp only [applyStepSlice]
    by_cases h0 : level = 0
    · subst h0
      by_cases hl : l = 0
      · subst hl
        simpa [Function.update_same] using List.mem_append_left _ hmem
      · simpa [Function.update_noteq hl] using hmem
    · rw [if_neg h0]
      by_cases hl : l = level
      · subst hl
        rw [Function.update_same]
        exact mem_foldl_insertIdx index _ _ hmem
      · simpa [Function.update_noteq hl] using hmem

/-- A scope dropped anywhere during an edit fold has its gen in the
concatenated `DeleteFile` gen lists. -/
theorem foldl_applyStepSlice_removed (edits : List VersionEdit) :
    ∀ (slice : LevelSlice) (l : Fin 7) (scope : Scope),
      scope ∈ slice l → scope ∉ (edits.foldl applyStepSlice slice) l →
        scope.gen ∈ (edits.map VersionEdit.deletedGens).flatten := by
  induction edits with
  | nil => intro slice l scope hmem hout; exact absurd hmem hout
  | cons e rest ih =>
    intro slice l scope hmem hout
    simp only [List.map_cons, List.flatten_cons, List.mem_append]
    by_cases hstep : scope ∈ applyStepSlice slice e l
    · exact Or.inr (ih _ _ _ hstep hout)
    · exact Or.inl (applyStepSlice_removed hmem hstep)

/-! ## Claim C6: the major-compaction trigger -/

/-- An explicit configuration for the C6 counterexample: per-level capacity
`1 × 1^level = 1`. -/
def exConfigC6 : Config :=
  { minor_threshold_with_len := 2333
    major_threshold_with_sst_size := 1
    level_sst_magnification := 1
    wal_enable := true
    wal_async_put_enable := true }

/-- A version with exactly one level-0 table for the C6 counterexample. -/
def exVersionC6 : Version :=
  { version_num := 0
    table_loader := []
    level_slice := fun l => if l = 0 then [⟨[0], [1], 5⟩] else []
    meta_data := ⟨0, 0⟩ }

/-- C6 counterexample: with capacity `major_threshold_with_sst_size ×
level_sst_magnification^0 = 1` and exactly one level-0 table — a level at,
not above, its capacity — `is_threshold_exceeded_major` already reports a
trigger, refuting "at or below the capacity no trigger is reported". -/
theorem C6_counterexample :
    (exVersionC6.level_slice 0).length
        = exConfigC6.major_threshold_with_sst_size *
            exConfigC6.level_sst_magnification ^ ((0 : Fin 7) : Nat)
      ∧ exVersionC6.is_threshold_exceeded_major exConfigC6 0 = true := by
  constructor
  · decide
  · decide

/-- C6 (amended): `is_threshold_exceeded_major(level)` reports a
major-compaction trigger exactly when the number of tables at that level
is **at least** the per-level capacity `major_threshold_with_sst_size ×
level_sst_magnification^level` (the comparison in the source is `>=`). -/
theorem C6_amended_threshold (v : Version) (config : Config) (level : Fin 7) :
    v.is_threshold_exceeded_major config level = true
      ↔ config.major_threshold_with_sst_size *
          config.level_sst_magnification ^ (level : Nat)
        ≤ (v.level_slice level).length := by
  simp [Version.is_threshold_exceeded_major, ge_iff_le]

/-! ## Claim C2: the per-edit semantics of `Version::apply` -/

/-- The per-edit effect on `level_slice` as claim C2 words it: `DeleteFile`
removes exactly the scopes whose gen is contained in `gens` (a filter, so
the relative order of the survivors is preserved); `NewFile` at level 0
appends the scopes sorted by gen ascending; `NewFile` at level ≥ 1 inserts
the scopes in reverse-by-gen order each at `insert_index`. -/
def applyEditSliceSpec (slice : LevelSlice) : VersionEdit → LevelSlice
  | .deleteFile gens level _ =>
    Function.update slice level
      ((slice level).filter (fun scope => decide (scope.gen ∉ gens)))
  | .newFile scopes level index _ =>
    if level = 0 then
      Function.update slice 0 (slice 0 ++ sortByGen scopes)
    else
      Function.update slice level
        (((sortByGen scopes).reverse).foldl (fun vec scope => vec.insertIdx index scope)
          (slice level))

/-- The translated edit step agrees with the claim-worded edit step. -/
theorem applyStepSlice_eq_spec (slice : LevelSlice) (e : VersionEdit) :
    applyStepSlice slice e = applyEditSliceSpec slice e := by
  cases e with
  | deleteFile gens level meta =>
    exact congrArg (Function.update slice level)
      (List.filter_congr (fun scope _ => by
        simp [List.contains, List.elem_eq_mem, Scope.get_gen]))
  | newFile scopes level index meta => rfl

/-- C2: `Version::apply` processes the edits in order, each edit acting on
`level_slice` exactly as claim C2 describes (`applyEditSliceSpec`); and
the `DeleteFile` step yields a sublist of the level, i.e. it preserves the
relative order of the remaining scopes. -/
theorem C2_apply_edit_semantics (v : Version) (edits : List VersionEdit) :
    (v.apply edits).1.level_slice = edits.foldl applyEditSliceSpec v.level_slice
      ∧ ∀ (slice : LevelSlice) (gens : List Int) (level : Fin 7) (meta : TableMeta),
          ((applyEditSliceSpec slice (VersionEdit.deleteFile gens level meta)) level).Sublist
            (slice level) := by
  constructor
  · show (edits.foldl applyStep (v.level_slice, [])).1 = _
    rw [foldl_applyStep_fst]
    exact List.foldl_ext _ _ _ (fun slice e _ => applyStepSlice_eq_spec slice e)
  · intro slice gens level meta
    simp only [applyEditSliceSpec, Function.update_same]
    exact List.filter_sublist _

/-! ## Claim C7: version number and the Cleaner message -/

/-- C7: after `Version::apply`, the version number is the predecessor's
plus one, the call sends exactly one `CleanTag::Add` carrying that new
version number and the concatenated `DeleteFile` gen lists, and every
scope the edits removed from some level has its gen in that list. -/
theorem C7_apply_clean_tag (v : Version) (edits : List VersionEdit) :
    (v.apply edits).1.version_num = v.version_num + 1
      ∧ (v.apply edits).2
          = [CleanTag.add (v.version_num + 1) ((edits.map VersionEdit.deletedGens).flatten)]
      ∧ ∀ (level : Fin 7) (scope : Scope),
          scope ∈ v.level_slice level →
            scope ∉ (v.apply edits).1.level_slice level →
              scope.gen ∈ (edits.map VersionEdit.deletedGens).flatten := by
  refine ⟨rfl, ?_, ?_⟩
  · show [CleanTag.add _ (edits.foldl applyStep (v.level_slice, [])).2] = _
    rw [foldl_applyStep_snd]
    rfl
  · intro level scope hmem hout
    have hout1 : scope ∉ (edits.foldl applyStepSlice v.level_slice) level := by
      rw [← foldl_applyStep_fst edits v.level_slice []]
      exact hout
    exact foldl_applyStepSlice_removed edits _ _ _ hmem hout1

/-- A version and an edit list for the C7 witness. -/
def exVersionC7 : Version :=
  { version_num := 3
    table_loader := []
    level_slice := fun l => if l = 1 then [⟨[0], [1], 7⟩] else []
    meta_data := ⟨0, 0⟩ }

/-- The edit list for the C7 witness: delete gen 7 from level 1. -/
def exEditsC7 : List VersionEdit := [VersionEdit.deleteFile [7] 1 default]

/-- Witness for C7 at a concrete version and edit list. -/
theorem C7_apply_clean_tag_witness :
    (exVersionC7.apply exEditsC7).1.version_num = 4
      ∧ (exVersionC7.apply exEditsC7).2 = [CleanTag.add 4 [7]]
      ∧ (7 : Int) ∈ (exEditsC7.map VersionEdit.deletedGens).flatten := by
  refine ⟨(C7_apply_clean_tag exVersionC7 exEditsC7).1, ?_, ?_⟩
  · exact (C7_apply_clean_tag exVersionC7 exEditsC7).2.1
  · exact (C7_apply_clean_tag exVersionC7 exEditsC7).2.2 1 ⟨[0], [1], 7⟩
      (by decide) (by decide)

/-! ## Claim C8: the WAL replay rebuild of the MemTable -/

/-- Filtering out another key does not change a key lookup. -/
theorem find?_filter_ne (m : MemMap) (key k : Key) (h : k ≠ key) :
    (m.filter (fun p => !(p.1 = key : Bool))).find? (fun p => p.1 = k)
      = m.find? (fun p => p.1 = k) := by
  induction m with
  | nil => rfl
  | cons a t ih =>
    have hkk : ¬(key = k) := fun hh => h hh.symm
    by_cases ha : a.1 = key
    · have hne : ¬(a.1 = k) := fun hh => h (hh.symm.trans ha)
      simp [List.filter_cons, List.find?_cons, ha, hne, hkk, ih]
    · by_cases hk2 : a.1 = k
      · simp [List.filter_cons, List.find?_cons, ha, hk2, h]
      · simp [List.filter_cons, List.find?_cons, ha, hk2, ih]

/-- Lookup after `memMapInsert`: the inserted key reads back the inserted
value, other keys are untouched. -/
theorem memMapLookup_insert (m : MemMap) (key k : Key) (value : CommandData × Nat) :
    memMapLookup (memMapInsert m key value) k
      = if k = key then some value else memMapLookup m k := by
  by_cases hk : k = key
  · subst hk
    simp [memMapLookup, memMapInsert, List.find?_cons]
  · have hkey : ¬(key = k) := fun hh => hk hh.symm
    simp [memMapLookup, memMapInsert, List.find?_cons, hkey, hk,
      find?_filter_ne m key k hk]

/-- Lookup after building a map from pairs with pairwise distinct keys:
the first (and only) pair with the key wins, else the accumulator. -/
theorem memMapLookup_foldl_insert (pairs : List (Key × (CommandData × Nat)))
    (k : Key) (hnd : pairs.Pairwise (fun a b => a.1 ≠ b.1)) :
    ∀ m : MemMap,
      memMapLookup (pairs.foldl (fun m p => memMapInsert m p.1 p.2) m) k
        = ((pairs.find? (fun p => p.1 = k)).map (fun p => p.2)).or
            (memMapLookup m k) := by
  induction pairs with
  | nil => intro m; simp [List.foldl]
  | cons p rest ih =>
    intro m
    rcases List.pairwise_cons.mp hnd with ⟨hp, hrest⟩
    by_cases hpk : p.1 = k
    · have hnone : rest.find? (fun q => (q.1 = k : Bool)) = none := by
        apply List.find?_eq_none.mpr
        intro q hq
        have hq2 : ¬(q.1 = k) := fun hh => hp q hq (hpk.trans hh.symm)
        simpa using hq2
      simp only [List.foldl_cons, ih hrest, hnone, List.find?_cons, hpk]
      simp [memMapLookup_insert, hpk.symm]
    · have hpkb : ¬(p.1 = k) := hpk
      simp only [List.foldl_cons, ih hrest, List.find?_cons]
      rw [memMapLookup_insert, if_neg (fun hh => hpk hh.symm)]
      simp [hpkb]

/-- Every command surviving `unique_by` has a key outside `seen`. -/
theorem get_key_not_mem_seen_of_mem_uniqueByKeyAux :
    ∀ (seen : List Key) (l : List CommandData) (c : CommandData),
      c ∈ uniqueByKeyAux seen l → c.get_key ∉ seen := by
  intro seen l
  induction l generalizing seen with
  | nil => intro c h; exact absurd h (List.not_mem_nil c)
  | cons cmd rest ih =>
    intro c h
    by_cases hc : cmd.get_key ∈ seen
    · rw [uniqueByKeyAux, if_pos hc] at h
      exact ih seen c h
    · rw [uniqueByKeyAux, if_neg hc] at h
      rcases List.mem_cons.mp h with h | h
      · exact h ▸ hc
      · intro hmem
        exact ih _ c h (List.mem_cons_of_mem _ hmem)

/-- The output of `unique_by` has pairwise distinct keys. -/
theorem pairwise_uniqueByKeyAux :
    ∀ (seen : List Key) (l : List CommandData),
      (uniqueByKeyAux seen l).Pairwise (fun a b => a.get_key ≠ b.get_key) := by
  intro seen l
  induction l generalizing seen with
  | nil => exact List.Pairwise.nil
  | cons cmd rest ih =>
    by_cases hc : cmd.get_key ∈ seen
    · rw [uniqueByKeyAux, if_pos hc]
      exact ih seen
    · rw [uniqueByKeyAux, if_neg hc]
      refine List.Pairwise.cons ?_ (ih _)
      intro b hb heq
      exact get_key_not_mem_seen_of_mem_uniqueByKeyAux _ _ b hb
        (heq ▸ List.mem_cons_self _ _)

/-- Searching the deduplicated list for a key not yet seen finds the same
command as searching the original list. -/
theorem find?_uniqueByKeyAux (k : Key) :
    ∀ (seen : List Key) (l : List CommandData), k ∉ seen →
      (uniqueByKeyAux seen l).find? (fun c => c.get_key = k)
        = l.find? (fun c => c.get_key = k) := by
  intro seen l
  induction l generalizing seen with
  | nil => intro h; rfl
  | cons cmd rest ih =>
    intro h
    by_cases hc : cmd.get_key ∈ seen
    · have hck : ¬(cmd.get_key = k) := fun hh => h (hh ▸ hc)
      rw [uniqueByKeyAux, if_pos hc, ih seen h]
      simp [List.find?_cons, hck]
    · rw [uniqueByKeyAux, if_neg hc]
      by_cases hck : cmd.get_key = k
      · simp [List.find?, hck]
      · have hne : k ∉ cmd.get_key :: seen := by
          intro hmem
          rcases List.mem_cons.mp hmem with hmem | hmem
          · exact hck hmem.symm
          · exact h hmem
        have hckb : (cmd.get_key = k : Bool) = false := by simp [hck]
        simp only [List.find?, hckb]
        exact ih _ hne

/-- C8: the rebuilt `MemMap` maps each key to the **last** command of the
replayed WAL sequence bearing that key (the first in the reversed
sequence), paired with the one freshly generated `create_seq_id`; keys
never written are absent. -/
theorem C8_rebuild_mem_map (vec_data : List CommandData) (create_seq_id : Nat)
    (k : Key) :
    memMapLookup (rebuildMemMap vec_data create_seq_id) k
      = (vec_data.reverse.find? (fun cmd => cmd.get_key = k)).map
          (fun cmd => (cmd, create_seq_id)) := by
  have hpw : ((uniqueByKey vec_data.reverse).map
      (fun cmd => (cmd.get_key, (cmd, create_seq_id)))).Pairwise
        (fun a b => a.1 ≠ b.1) := by
    rw [List.pairwise_map]
    exact pairwise_uniqueByKeyAux [] _
  rw [rebuildMemMap, memMapFromIter,
    memMapLookup_foldl_insert _ k hpw []]
  have hbase : memMapLookup [] k = none := rfl
  rw [hbase, Option.or_none, List.find?_map]
  rw [show ((fun p : Key × (CommandData × Nat) => (p.1 = k : Bool)) ∘
      (fun cmd => (cmd.get_key, (cmd, create_seq_id))))
      = (fun cmd : CommandData => (cmd.get_key = k : Bool)) from rfl]
  rw [show uniqueByKey vec_data.reverse
      = uniqueByKeyAux [] vec_data.reverse from rfl]
  rw [find?_uniqueByKeyAux k [] _ (List.not_mem_nil k)]
  cases vec_data.reverse.find? (fun cmd => (cmd.get_key = k : Bool)) <;> rfl

/-! ## Store-level helper lemmas -/

/-- A WAL append never touches the mem-table. -/
theorem wal_put_mem_table (s : LsmStore) (cmd : CommandData) (b : Bool) :
    (wal_put s cmd b).mem_table = s.mem_table := by
  unfold wal_put; split <;> rfl

/-- A WAL append never touches the configuration. -/
theorem wal_put_config (s : LsmStore) (cmd : CommandData) (b : Bool) :
    (wal_put s cmd b).config = s.config := by
  unfold wal_put; split <;> rfl

/-- The mem-table after `minor_compaction` is the mem-table produced by
`table_swap_and_sort`. -/
theorem minor_compaction_mem_table (s : LsmStore) :
    (s.minor_compaction).mem_table = (s.mem_table.table_swap_and_sort).2 := by
  unfold LsmStore.minor_compaction
  split <;> (try split) <;> simp_all [LsmStore.live_tag]

/-- A `minor_compaction` never touches the WAL. -/
theorem minor_compaction_wal (s : LsmStore) :
    (s.minor_compaction).wal = s.wal := by
  unfold LsmStore.minor_compaction
  split <;> (try split) <;> simp_all [LsmStore.live_tag]

/-- Swapping the active map into the frozen slot does not change what
`find` observes. -/
theorem table_swap_and_sort_find (mt : MemTable) (key : Key) :
    ((mt.table_swap_and_sort).2).find key = mt.find key := by
  unfold MemTable.table_swap_and_sort
  by_cases ha : mt.active.isEmpty
  · simp [ha]
  · cases hf : mt.frozen with
    | none =>
      cases hl : memMapLookup mt.active key with
      | none =>
        simp [ha, hf, MemTable.find, hl,
          show memMapLookup ([] : MemMap) key = none from rfl]
      | some p =>
        obtain ⟨cmd, sq⟩ := p
        simp [ha, hf, MemTable.find, hl,
          show memMapLookup ([] : MemMap) key = none from rfl]
    | some frozen_map => simp [ha, hf]

/-- After `insert_data_and_is_exceeded`, the inserted command's key reads
back that command's value. -/
theorem insert_data_find (mt : MemTable) (cmd : CommandData) (config : Config) :
    ((mt.insert_data_and_is_exceeded cmd config).1).find cmd.get_key
      = some (commandValue cmd) := by
  simp [MemTable.insert_data_and_is_exceeded, MemTable.find, memMapLookup_insert]

/-- The result component of `append_cmd_data` is always `Ok(())`: `wal_put`
swallows its failure and the remaining failure points are outside `src/`. -/
theorem append_cmd_data_fst (s : LsmStore) (cmd : CommandData) (w : Bool) :
    (s.append_cmd_data cmd w).1 = Except.ok () := rfl

/-- The mem-table after `append_cmd_data` depends only on the prior
mem-table and the configuration: insert, then swap when the threshold was
crossed. -/
theorem append_cmd_data_mem_table (s : LsmStore) (cmd : CommandData) (w : Bool) :
    ((s.append_cmd_data cmd w).2).mem_table
      = (if (s.mem_table.insert_data_and_is_exceeded cmd s.config).2
         then (((s.mem_table.insert_data_and_is_exceeded cmd s.config).1).table_swap_and_sort).2
         else (s.mem_table.insert_data_and_is_exceeded cmd s.config).1) := by
  simp only [LsmStore.append_cmd_data]
  split
  · simp only [wal_put_mem_table, wal_put_config]
    split
    · rw [minor_compaction_mem_table]
    · rfl
  · split
    · rw [minor_compaction_mem_table]
    · rfl

/-- After `append_cmd_data`, the appended command's key reads back that
command's value from the mem-table, whether or not a minor compaction was
triggered. -/
theorem append_cmd_data_find (s : LsmStore) (cmd : CommandData) (w : Bool) :
    ((s.append_cmd_data cmd w).2).mem_table.find cmd.get_key
      = some (commandValue cmd) := by
  rw [append_cmd_data_mem_table]
  split
  · rw [table_swap_and_sort_find]
    exact insert_data_find _ _ _
  · exact insert_data_find _ _ _

/-- When the underlying log append fails, `append_cmd_data` leaves the WAL
unchanged. -/
theorem append_cmd_data_wal_of_fail (s : LsmStore) (cmd : CommandData) (w : Bool)
    (hfail : s.wal_fail = true) :
    ((s.append_cmd_data cmd w).2).wal = s.wal := by
  have hwp : wal_put s cmd (!s.is_async_wal) = s := by
    simp [wal_put, hfail]
  simp only [LsmStore.append_cmd_data]
  split
  · rw [hwp]
    split
    · rw [minor_compaction_wal]
    · rfl
  · split
    · rw [minor_compaction_wal]
    · rfl

/-! ## Claim C5: the layered `get` -/

/-- C5: `LsmStore::get` serves a mem-table hit directly, leaving the store
untouched; on a mem-table miss it first drains the outstanding
compaction live-tags (`wait_for_compression_down`) and only then asks the
current version; and the result is `None` exactly when both the mem-table
and the version miss. -/
theorem C5_get_semantics (s : LsmStore) (key : Key) :
    (∀ value, s.mem_table.find key = some value → s.get key = (some value, s))
      ∧ (s.mem_table.find key = none →
          s.get key = (s.wait_for_compression_down.version.query key,
            s.wait_for_compression_down))
      ∧ ((s.get key).1 = none
          ↔ s.mem_table.find key = none ∧ s.version.query key = none) := by
  refine ⟨?_, ?_, ?_⟩
  · intro value h
    simp [LsmStore.get, h]
  · intro h
    simp [LsmStore.get, h]
  · cases h : s.mem_table.find key with
    | none => simp [LsmStore.get, LsmStore.wait_for_compression_down, h]
    | some value => simp [LsmStore.get, h]

/-- An empty version for the concrete stores. -/
def exVersionEmpty : Version :=
  { version_num := 0
    table_loader := []
    level_slice := level_slice_new
    meta_data := ⟨0, 0⟩ }

/-- A baseline configuration for the concrete stores. -/
def exConfigStore : Config :=
  { minor_threshold_with_len := 2333
    major_threshold_with_sst_size := 10
    level_sst_magnification := 10
    wal_enable := true
    wal_async_put_enable := true }

/-- A store with a pending live tag and an empty mem-table, for the C5
witness. -/
def exStoreC5 : LsmStore :=
  { mem_table := ⟨[], none, 0⟩
    version := exVersionEmpty
    config := exConfigStore
    wal := []
    vec_rev := [()]
    wal_fail := false }

/-- Witness for C5: at a concrete store with one outstanding live tag, a
mem-table miss drains the pending list and answers from the version. -/
theorem C5_get_semantics_witness :
    exStoreC5.get [3] = (exStoreC5.wait_for_compression_down.version.query [3],
      exStoreC5.wait_for_compression_down) :=
  (C5_get_semantics exStoreC5 [3]).2.1 rfl

/-! ## Claim C4: `remove` of a missing vs a present key -/

/-- C4: `LsmStore::remove` answers `Err(KeyNotFound)` exactly on keys the
full `get` reports as absent; on a key `get` reports present it succeeds,
its state is the `append_cmd_data` of a tombstone on the post-`get` state,
and the tombstone is afterwards visible in the mem-table. -/
theorem C4_remove_semantics (s : LsmStore) (key : Key) :
    ((s.get key).1 = none →
        s.remove key = (Except.error KvsError.keyNotFound, (s.get key).2))
      ∧ ∀ value, (s.get key).1 = some value →
          (s.remove key).1 = Except.ok ()
            ∧ (s.remove key).2
                = (((s.get key).2).append_cmd_data (CommandData.remove key) true).2
            ∧ ((s.remove key).2).mem_table.find key = some [] := by
  constructor
  · intro h
    unfold LsmStore.remove
    rcases hg : s.get key with ⟨o, s1⟩
    rw [hg] at h
    cases o with
    | none => rfl
    | some value => cases h
  · intro value h
    unfold LsmStore.remove
    rcases hg : s.get key with ⟨o, s1⟩
    rw [hg] at h
    cases o with
    | none => cases h
    | some v =>
      refine ⟨append_cmd_data_fst _ _ _, rfl, ?_⟩
      exact append_cmd_data_find s1 (CommandData.remove key) true

/-- An empty store for the C4 witness (the missing-key branch). -/
def exStoreC4a : LsmStore :=
  { mem_table := ⟨[], none, 0⟩
    version := exVersionEmpty
    config := exConfigStore
    wal := []
    vec_rev := []
    wal_fail := false }

/-- A store containing key `[2]`, for the C4 witness (the present-key
branch). -/
def exStoreC4b : LsmStore :=
  { mem_table := ⟨[([2], (CommandData.set [2] [5], 0))], none, 0⟩
    version := exVersionEmpty
    config := exConfigStore
    wal := []
    vec_rev := []
    wal_fail := false }

/-- Witness for C4 at two concrete stores: a missing key errors with
`KeyNotFound`, a present key is removed with `Ok`. -/
theorem C4_remove_semantics_witness :
    exStoreC4a.remove [1] = (Except.error KvsError.keyNotFound, exStoreC4a)
      ∧ (exStoreC4b.remove [2]).1 = Except.ok () := by
  constructor
  · exact (C4_remove_semantics exStoreC4a [1]).1 rfl
  · exact ((C4_remove_semantics exStoreC4b [2]).2 [5] rfl).1

/-! ## Claim C9: WAL append failures are swallowed -/

/-- C9: with the WAL enabled — in either synchronous or asynchronous mode,
since `s.config.wal_async_put_enable` is left free — a failing log append
(`wal_fail = true`) is swallowed: `append_cmd_data` still returns `Ok`,
the mem-table ends up exactly as it would had the append succeeded, and
the WAL is left unchanged. -/
theorem C9_wal_failure_swallowed (s : LsmStore) (cmd : CommandData)
    (hwal : s.config.wal_enable = true) (hfail : s.wal_fail = true) :
    (s.append_cmd_data cmd true).1 = Except.ok ()
      ∧ ((s.append_cmd_data cmd true).2).mem_table
          = ((({ s with wal_fail := false }).append_cmd_data cmd true).2).mem_table
      ∧ ((s.append_cmd_data cmd true).2).wal = s.wal := by
  refine ⟨append_cmd_data_fst _ _ _, ?_, append_cmd_data_wal_of_fail _ _ _ hfail⟩
  rw [append_cmd_data_mem_table, append_cmd_data_mem_table]

/-- A store in synchronous-WAL mode whose log append fails, for the C9
witness. -/
def exStoreC9 : LsmStore :=
  { mem_table := ⟨[], none, 0⟩
    version := exVersionEmpty
    config := { minor_threshold_with_len := 2333
                major_threshold_with_sst_size := 10
                level_sst_magnification := 10
                wal_enable := true
                wal_async_put_enable := false }
    wal := [CommandData.set [9] [9]]
    vec_rev := []
    wal_fail := true }

/-- Witness for C9 at a concrete synchronous-mode store with a failing
WAL: the operation returns `Ok` and the WAL is unchanged. -/
theorem C9_wal_failure_swallowed_witness :
    (exStoreC9.append_cmd_data (CommandData.set [1] [2]) true).1 = Except.ok ()
      ∧ ((exStoreC9.append_cmd_data (CommandData.set [1] [2]) true).2).wal
          = exStoreC9.wal := by
  refine ⟨?_, ?_⟩
  · exact (C9_wal_failure_swallowed exStoreC9 (CommandData.set [1] [2]) rfl rfl).1
  · exact (C9_wal_failure_swallowed exStoreC9 (CommandData.set [1] [2]) rfl rfl).2.2

/-! ## Claim C10: `remove` on a key whose latest record is a tombstone -/

/-- A store whose key `[97]` has a tombstone as its latest (and only)
mem-table record, for the C10 failing input. -/
def exStoreC10 : LsmStore :=
  { mem_table := ⟨[([97], (CommandData.remove [97], 5))], none, 5⟩
    version := exVersionEmpty
    config := exConfigStore
    wal := [CommandData.set [97] [1]]
    vec_rev := []
    wal_fail := false }

/-- C10 failing input, evaluated: on a key whose latest record is a
tombstone, `get` answers `Some(empty)` (the `MemTable::find` of §4.3 with
no empty-to-miss mapping in `LsmStore::get`), so `remove` **succeeds**,
inserts a second tombstone into the mem-table and appends it to the WAL —
instead of the `Err(KeyNotFound)`-without-mutation the claim (and spec
scenario S1) require. -/
theorem C10_tombstone_remove_succeeds :
    (exStoreC10.get [97]).1 = some []
      ∧ (exStoreC10.remove [97]).1 = Except.ok ()
      ∧ memMapLookup ((exStoreC10.remove [97]).2).mem_table.active [97]
          = some (CommandData.remove [97], 5)
      ∧ ((exStoreC10.remove [97]).2).wal
          = exStoreC10.wal ++ [CommandData.remove [97]] := by
  refine ⟨rfl, rfl, ?_, rfl⟩
  rfl

/-! ## Claim C1: the search order of `Version::query` -/

/-- Bounds of the binary-search loop: an `Ok` slot is in range, an `Err`
insertion point is between `left` and the vector length. -/
theorem binarySearchLoop_bounds (vec : List Scope) (key : Key) :
    ∀ (fuel left right : Nat), left ≤ right → right ≤ vec.length →
      (match binarySearchLoop vec key left right fuel with
       | Sum.inl i => i < vec.length
       | Sum.inr j => left ≤ j ∧ j ≤ vec.length) := by
  intro fuel
  induction fuel with
  | zero =>
    intro left right h1 h2
    simp only [binarySearchLoop]
    exact ⟨le_refl _, le_trans h1 h2⟩
  | succ fuel ih =>
    intro left right h1 h2
    by_cases hlr : left < right
    · simp only [binarySearchLoop, if_pos hlr]
      cases hc : keyCmp ((vec.getD ((left + right) / 2) default).start) key with
      | lt =>
        have H := ih ((left + right) / 2 + 1) right (by omega) h2
        revert H
        cases binarySearchLoop vec key ((left + right) / 2 + 1) right fuel with
        | inl i => exact fun H => H
        | inr j => exact fun H => ⟨by omega, H.2⟩
      | gt =>
        have H := ih left ((left + right) / 2) (by omega) (by omega)
        revert H
        cases binarySearchLoop vec key left ((left + right) / 2) fuel with
        | inl i => exact fun H => H
        | inr j => exact fun H => ⟨H.1, by omega⟩
      | eq => exact by omega
    · simp only [binarySearchLoop, if_neg hlr]
      exact ⟨le_refl _, le_trans h1 h2⟩

/-- For a non-empty level, `query_meet_index` always lands inside the
level: the candidate slot exists. -/
theorem query_meet_index_lt (v : Version) (key : Key) (level : Fin 7)
    (h : v.level_slice level ≠ []) :
    v.query_meet_index key level < (v.level_slice level).length := by
  have hlen : 0 < (v.level_slice level).length := List.length_pos.mpr h
  unfold Version.query_meet_index binary_search_by
  have H := binarySearchLoop_bounds (v.level_slice level) key
    ((v.level_slice level).length + 1) 0 (v.level_slice level).length
    (Nat.zero_le _) (le_refl _)
  revert H
  cases binarySearchLoop (v.level_slice level) key 0 (v.level_slice level).length
      ((v.level_slice level).length + 1) with
  | inl i => exact fun H => H
  | inr j => exact fun H => by show j - 1 < _; omega

/-- The level-0 phase in the wording of claim C1: walk the level-0 scopes
newest-first, probe each scope containing the key, return the first value
found. -/
def queryLevel0C1 (v : Version) (key : Key) : Option Bytes :=
  ((v.level_slice 0).reverse).findSome? (fun scope =>
    if scope.meet_by_key key then
      (v.table_loader.get scope.get_gen).bind (fun t => t.query key)
    else none)

/-- The level-0 loop of the translation computes exactly the claim-worded
first-hit probe. -/
theorem queryLevel0_eq_findSome (v : Version) (key : Key) :
    ∀ scopes : List Scope,
      queryLevel0 v.table_loader key scopes
        = scopes.findSome? (fun scope =>
            if scope.meet_by_key key then
              (v.table_loader.get scope.get_gen).bind (fun t => t.query key)
            else none) := by
  intro scopes
  induction scopes with
  | nil => rfl
  | cons scope rest ih =>
    by_cases hm : scope.meet_by_key key
    · cases hg : v.table_loader.get scope.get_gen with
      | none => simp [queryLevel0, List.findSome?_cons, hm, hg, ih]
      | some t =>
        cases hq : t.query key with
        | none => simp [queryLevel0, List.findSome?_cons, hm, hg, hq, ih]
        | some value => simp [queryLevel0, List.findSome?_cons, hm, hg, hq]
    · simp [queryLevel0, List.findSome?_cons, hm, ih]

/-- The levels-phase of the translation returns the answer of the single
candidate table of the **first non-empty** level it visits — later levels
are never consulted. -/
theorem queryLevels_eq_find (v : Version) (key : Key) :
    ∀ levels : List (Fin 7),
      queryLevels v key levels
        = match levels.find? (fun level => !(v.level_slice level).isEmpty) with
          | some level =>
            ((v.level_slice level)[v.query_meet_index key level]?).bind (fun scope =>
              (v.table_loader.get scope.get_gen).bind (fun t => t.query key))
          | none => none := by
  intro levels
  induction levels with
  | nil => rfl
  | cons level rest ih =>
    by_cases he : (v.level_slice level).isEmpty
    · have hemp : v.level_slice level = [] := List.isEmpty_iff.mp he
      have hoff : (v.level_slice level)[v.query_meet_index key level]? = none := by
        rw [hemp]; simp
      simp only [queryLevels, hoff, List.find?_cons, he, Bool.not_true]
      exact ih
    · have hne : v.level_slice level ≠ [] := fun hh => he (by simp [hh])
      have hlt := query_meet_index_lt v key level hne
      have hs : (v.level_slice level)[v.query_meet_index key level]?
          = some ((v.level_slice level).get ⟨v.query_meet_index key level, hlt⟩) :=
        List.getElem?_eq_getElem hlt
      have heb : (!(v.level_slice level).isEmpty) = true := by
        simp [List.isEmpty_iff, hne]
      simp only [queryLevels, hs, List.find?_cons, heb, Option.bind]
      cases v.table_loader.get
          ((v.level_slice level).get ⟨v.query_meet_index key level, hlt⟩).get_gen <;> rfl

/-- The full query in the wording of claim C1: on a level-0 miss, each of
levels 1..6 is probed **in turn** through its single candidate slot, and
the first value found anywhere is returned. This is what the claim
asserts; the counterexample below shows the code differs. -/
def queryClaimC1 (v : Version) (key : Key) : Option Bytes :=
  match queryLevel0C1 v key with
  | some value => some value
  | none =>
    ([1, 2, 3, 4, 5, 6] : List (Fin 7)).findSome? (fun level =>
      ((v.level_slice level)[v.query_meet_index key level]?).bind (fun scope =>
        (v.table_loader.get scope.get_gen).bind (fun t => t.query key)))

/-- The amended behaviour: on a level-0 miss, only the **first non-empty**
level among 1..6 is consulted; its single candidate table's answer (or
`None` when its table is not loaded) is the final answer, and `None` is
returned when levels 1..6 are all empty. -/
def queryAmendedC1 (v : Version) (key : Key) : Option Bytes :=
  match queryLevel0C1 v key with
  | some value => some value
  | none =>
    match ([1, 2, 3, 4, 5, 6] : List (Fin 7)).find?
        (fun level => !(v.level_slice level).isEmpty) with
    | some level =>
      ((v.level_slice level)[v.query_meet_index key level]?).bind (fun scope =>
        (v.table_loader.get scope.get_gen).bind (fun t => t.query key))
    | none => none

/-- C1 (amended): `Version::query` computes `queryAmendedC1`: level 0
newest-first exactly as the claim states, but the levels phase stops at
the first non-empty level of 1..6 instead of trying every level in turn. -/
theorem C1_query_amended (v : Version) (key : Key) :
    v.query key = queryAmendedC1 v key := by
  unfold Version.query queryAmendedC1 queryLevel0C1
  rw [queryLevel0_eq_findSome v key ((v.level_slice 0).reverse)]
  rw [queryLevels_eq_find v key [1, 2, 3, 4, 5, 6]]

/-- A table that does not contain key `[1]`, loaded under gen 1. -/
def exTableC1a : Table := [([0], [9])]

/-- A table that maps key `[1]` to `[7]`, loaded under gen 2. -/
def exTableC1b : Table := [([1], [7])]

/-- The loader for the C1 counterexample. -/
def exLoaderC1 : TableLoader := [(1, exTableC1a), (2, exTableC1b)]

/-- The C1 counterexample version: level 0 empty, level 1 holds the scope
of the missing table (gen 1), level 2 holds the scope of the table that
contains the key (gen 2); both scopes cover the key. -/
def exVersionC1 : Version :=
  { version_num := 0
    table_loader := exLoaderC1
    level_slice := fun l =>
      if l = 1 then [⟨[0], [2], 1⟩] else if l = 2 then [⟨[0], [2], 2⟩] else []
    meta_data := ⟨0, 0⟩ }

/-- C1 counterexample: the claim-worded search finds the value in level 2
after the level-1 candidate misses, but `Version::query` returns right at
level 1 with `None` — so "returning None only when every level misses" is
false for the code. -/
theorem C1_counterexample :
    exVersionC1.query [1] = none ∧ queryClaimC1 exVersionC1 [1] = some [7] := by
  constructor
  · rfl
  · rfl

/-! ## Claim C3: the `to_vec_edit`/`apply` round trip -/

/-- Inserting the elements of a reversed list one by one at index 0
prepends the list. -/
theorem foldl_insertIdx_zero (xs : List Scope) :
    ∀ acc : List Scope,
      xs.reverse.foldl (fun vec scope => vec.insertIdx 0 scope) acc = xs ++ acc := by
  induction xs with
  | nil => intro acc; rfl
  | cons x t ih =>
    intro acc
    rw [List.reverse_cons, List.foldl_append, ih]
    rfl

/-- Applying the `NewFile`-per-non-empty-level edits produced from
`v_slice` (the shape of `to_vec_edit`) to a slice that is empty on the
touched levels sets every listed non-empty level to its scopes sorted by
gen, and leaves the rest alone. -/
theorem foldl_newFile_levels (v_slice : LevelSlice) (metaFn : Fin 7 → TableMeta) :
    ∀ (L : List (Fin 7)) (w : LevelSlice), L.Nodup → (∀ x ∈ L, w x = []) →
      ∀ l : Fin 7,
        ((L.filterMap (fun level =>
            if (v_slice level).isEmpty then none
            else some (VersionEdit.newFile (v_slice level) level 0 (metaFn level)))).foldl
          applyStepSlice w) l
        = if l ∈ L ∧ ¬(v_slice l).isEmpty = true then sortByGen (v_slice l) else w l := by
  intro L
  induction L with
  | nil => intro w _ _ l; simp
  | cons a T ih =>
    intro w hnd hw l
    rcases List.nodup_cons.mp hnd with ⟨ha, hT⟩
    by_cases hea : (v_slice a).isEmpty = true
    · rw [List.filterMap_cons_none (by simp [hea])]
      rw [ih w hT (fun x hx => hw x (List.mem_cons_of_mem _ hx)) l]
      refine if_congr ?_ rfl rfl
      constructor
      · exact fun h => ⟨List.mem_cons_of_mem a h.1, h.2⟩
      · rintro ⟨hmem, hne⟩
        rcases List.mem_cons.mp hmem with rfl | hmem2
        · exact absurd hea hne
        · exact ⟨hmem2, hne⟩
    · rw [@List.filterMap_cons_some _ _
        (fun level => if (v_slice level).isEmpty = true then none
          else some (VersionEdit.newFile (v_slice level) level 0 (metaFn level)))
        a T (VersionEdit.newFile (v_slice a) a 0 (metaFn a)) (if_neg hea),
        List.foldl_cons]
      have hwa : w a = [] := hw a (List.mem_cons_self a T)
      have hw1a :
          applyStepSlice w (VersionEdit.newFile (v_slice a) a 0 (metaFn a)) a
            = sortByGen (v_slice a) := by
        by_cases h0 : a = 0
        · subst h0
          simp [applyStepSlice, Function.update_same, hwa]
        · simp only [applyStepSlice, if_neg h0, Function.update_same]
          rw [foldl_insertIdx_zero, hwa, List.append_nil]
      have hw1ne : ∀ x, x ≠ a →
          applyStepSlice w (VersionEdit.newFile (v_slice a) a 0 (metaFn a)) x = w x := by
        intro x hx
        by_cases h0 : a = 0
        · subst h0
          simp [applyStepSlice, Function.update_noteq hx]
        · simp [applyStepSlice, if_neg h0, Function.update_noteq hx]
      have hwT : ∀ x ∈ T,
          applyStepSlice w (VersionEdit.newFile (v_slice a) a 0 (metaFn a)) x = [] := by
        intro x hx
        rw [hw1ne x (fun hh => ha (hh ▸ hx))]
        exact hw x (List.mem_cons_of_mem _ hx)
      rw [ih _ hT hwT l]
      by_cases hla : l = a
      · subst hla
        have hlT : l ∉ T := ha
        simp [hlT, hea, hw1a, List.mem_cons_self]
      · rw [hw1ne l hla]
        refine if_congr ?_ rfl rfl
        constructor
        · exact fun h => ⟨List.mem_cons_of_mem a h.1, h.2⟩
        · rintro ⟨hmem, hne⟩
          rcases List.mem_cons.mp hmem with rfl | hmem2
          · exact absurd rfl hla
          · exact ⟨hmem2, hne⟩

/-- C3 (amended): loading `to_vec_edit(v)` into a fresh empty version
yields, at every level, the same scopes as `v` but re-sorted stably by
ascending gen — not necessarily in `v`'s order. -/
theorem C3_roundtrip_sorts_by_gen (v : Version) (loader : TableLoader) (l : Fin 7) :
    ((Version.load_from_log v.to_vec_edit loader).1).level_slice l
      = sortByGen (v.level_slice l) := by
  show ((v.to_vec_edit).foldl applyStep (level_slice_new, [])).1 l = _
  rw [foldl_applyStep_fst]
  rw [show v.to_vec_edit
      = (List.finRange 7).filterMap (fun level =>
          if (v.level_slice level).isEmpty then none
          else some (VersionEdit.newFile (v.level_slice level) level 0
            (sst_meta_by_level level v.meta_data.size_of_disk v.meta_data.len)))
      from rfl]
  rw [foldl_newFile_levels v.level_slice _ (List.finRange 7) level_slice_new
    (List.nodup_finRange 7) (fun x _ => rfl) l]
  by_cases he : (v.level_slice l).isEmpty = true
  · rw [if_neg (fun h => h.2 he)]
    rw [List.isEmpty_iff.mp he]
    rfl
  · rw [if_pos ⟨List.mem_finRange l, he⟩]

/-- The first scope of the C3 counterexample: smaller start key, larger
gen. -/
def exScopeC3a : Scope := ⟨[0], [0], 2⟩

/-- The second scope of the C3 counterexample: larger start key, smaller
gen. -/
def exScopeC3b : Scope := ⟨[1], [1], 1⟩

/-- The C3 counterexample version: level 1 is sorted by start key (as the
level invariant requires) but its gens are descending. -/
def exVersionC3 : Version :=
  { version_num := 0
    table_loader := []
    level_slice := fun l => if l = 1 then [exScopeC3a, exScopeC3b] else []
    meta_data := ⟨0, 0⟩ }

/-- C3 counterexample: round-tripping a version whose level 1 holds scopes
in start-key order `[gen 2, gen 1]` yields level 1 in gen order
`[gen 1, gen 2]` — the same scopes, but **not** in the same order, so the
claimed `level_slice` equivalence fails. -/
theorem C3_counterexample :
    exVersionC3.level_slice 1 = [exScopeC3a, exScopeC3b]
      ∧ ((Version.load_from_log exVersionC3.to_vec_edit []).1).level_slice 1
          = [exScopeC3b, exScopeC3a]
      ∧ exScopeC3a ≠ exScopeC3b := by
  refine ⟨rfl, by decide, by decide⟩

end KipDB
